import Mathlib

/-!
# Verification of the haku semantic-evaluation core

Shallow embedding of the two core source files of the repository:

* `src/feature.rs` — the feature-predicate evaluator (`check_feature_val`,
  `check_feature_list`, `process_feature`);
* `hakufile/src/func.rs` — the built-in function registry
  (`all_are`, `extract_part`, `replace_ext`, `replace_name`, `replace_stem`,
  `trim_string`, `match_regex`, `pad`, ...).

External collaborators that are not part of the repository (the `VarValue`
type from `var.rs`, the pest `Pairs` iterators, the `target` platform facts,
the `regex` engine, the `unicode_width` width table and the Rust `std::path`
functions) are modelled explicitly: lists of strings for pair iterators,
function parameters for the regex engine / width table / filesystem checks,
and an executable Unix-flavoured path model for `std::path`.
-/

namespace Haku

/-- Modelled from the spec: the external `Value` type (`var.rs` is not part of
the sources) — "a tagged union holding either an integer or a text payload". -/
inductive VarValue where
  | Int : Int → VarValue
  | Str : String → VarValue
deriving DecidableEq, Repr

/-- Modelled from the spec: textual projection of a `Value` (`to_string`).
An integer renders in decimal, text is returned as-is. -/
def VarValue.toText : VarValue → String
  | .Int n => toString n
  | .Str s => s

/-- Modelled from the spec: integer projection of a `Value` (`to_int`).
Text that does not parse as an integer projects to 0 (consistent with the
repository test `pad("abc", "+=", "aa") = "abc"`). -/
def VarValue.to_int : VarValue → ℤ
  | .Int n => n
  | .Str s => (s.toInt?).getD 0

/-- Model of Rust's `as usize` cast applied to an `i64`: reduce modulo 2^64. -/
def asUsize (i : Int) : Nat := (i % (2 ^ 64 : Int)).toNat

/-- Model of Rust `str::to_lowercase`, restricted to the ASCII case mapping
(the claims only exercise ASCII text; written over the character list so
that it evaluates by kernel reduction). -/
def lowerStr (s : String) : String := String.mk (s.data.map Char.toLower)

instance exceptDecEq {ε α : Type} [DecidableEq ε] [DecidableEq α] :
    DecidableEq (Except ε α) := fun x y =>
  match x, y with
  | .error a, .error b =>
    if h : a = b then isTrue (by rw [h]) else isFalse (fun hh => h (Except.error.inj hh))
  | .ok a, .ok b =>
    if h : a = b then isTrue (by rw [h]) else isFalse (fun hh => h (Except.ok.inj hh))
  | .error _, .ok _ => isFalse (fun hh => by cases hh)
  | .ok _, .error _ => isFalse (fun hh => by cases hh)

/-! ## Feature predicate evaluator (`src/feature.rs`) -/

/-- Model of the `target` crate's platform facts (`os()`, `pointer_width()`,
`os_family()`, `arch()`, `endian()`): external lowercase constants, passed
as an explicit record. -/
structure PlatformFacts where
  os : String
  bit : String
  family : String
  arch : String
  endian : String
deriving DecidableEq, Repr

/-- Modelled from the spec: the read slice of `RunOpts` (`vm.rs` is not part
of the sources) — "ordered list of feature names the user enabled". -/
structure RunOpts where
  feats : List String
deriving DecidableEq, Repr

/-- One predicate clause of a feature directive, as produced by the external
grammar: an optional `not_op`, a `feature_name`, and the `feature_val` inner
pairs rendered as their string values. -/
structure FeatureClause where
  negated : Bool
  name : String
  vals : List String
deriving DecidableEq, Repr

/-- Model of `check_feature_val` of `src/feature.rs`: `val` is in the list `p`
(each element lowercased before comparison); `neg` inverts the result. -/
def check_feature_val (val : String) (p : List String) (neg : Bool) : Bool :=
  let found := p.any (fun fv => val == lowerStr fv)
  if neg then !found else found

/-- Model of `check_feature_list` of `src/feature.rs`. `vals` is the list of enabled
features (`opts.feats` at the call site), `p` the clause's value list, `neg`
the negation flag and `feats` the collection accumulator (a `&mut Vec` in the
source, modelled by returning the updated list). Every value of `p` is pushed
lowercased into `feats` first; if `vals` is empty the function returns `false`
before the negation flip is applied. -/
def check_feature_list (vals : List String) (p : List String) (neg : Bool)
    (feats : List String) : Bool × List String :=
  let feats' := feats ++ p.map lowerStr
  if vals.isEmpty then (false, feats')
  else
    let found := p.any (fun fv => vals.any (fun v => lowerStr v == lowerStr fv))
    (if neg then !found else found, feats')

/-- One step of the `feature_val` match inside `process_feature`: dispatch on
the (lowercased) `f_name`; unknown names produce `Err(f_name)`. The `feats`
accumulator is only touched by the `feature`/`feat` branch. -/
def evalClause (pf : PlatformFacts) (opts : RunOpts) (c : FeatureClause)
    (feats : List String) : Except String Bool × List String :=
  match lowerStr c.name with
  | "os" => (.ok (check_feature_val pf.os c.vals c.negated), feats)
  | "bit" => (.ok (check_feature_val pf.bit c.vals c.negated), feats)
  | "family" => (.ok (check_feature_val pf.family c.vals c.negated), feats)
  | "platform" => (.ok (check_feature_val pf.family c.vals c.negated), feats)
  | "arch" => (.ok (check_feature_val pf.arch c.vals c.negated), feats)
  | "endian" => (.ok (check_feature_val pf.endian c.vals c.negated), feats)
  | "feature" =>
      let r := check_feature_list opts.feats c.vals c.negated feats
      (.ok r.1, r.2)
  | "feat" =>
      let r := check_feature_list opts.feats c.vals c.negated feats
      (.ok r.1, r.2)
  | other => (.error other, feats)

/-- The clause loop of `process_feature`: `ok &= pass` per clause, `Err`
returned immediately on an unknown predicate name (the accumulator keeps
whatever was collected so far, as the Rust `&mut Vec` does). -/
def processAux (pf : PlatformFacts) (opts : RunOpts) :
    List FeatureClause → Bool → List String → Except String Bool × List String
  | [], ok, feats => (.ok ok, feats)
  | c :: rest, ok, feats =>
    match evalClause pf opts c feats with
    | (.error e, feats') => (.error e, feats')
    | (.ok pass, feats') => processAux pf opts rest (ok && pass) feats'

/-- Model of `process_feature` of `src/feature.rs`: AND over all clauses, starting from
`ok = true`, with the collection accumulator threaded through. -/
def process_feature (pf : PlatformFacts) (cls : List FeatureClause)
    (opts : RunOpts) (feats : List String) : Except String Bool × List String :=
  processAux pf opts cls true feats

/-- The pure per-clause verdict (`pass` in the source); it never depends on
the accumulator. -/
def clausePass (pf : PlatformFacts) (opts : RunOpts) (c : FeatureClause) :
    Except String Bool :=
  (evalClause pf opts c []).1

/-- Whether a clause's verdict is `Ok(true)`. -/
def passTrue (pf : PlatformFacts) (opts : RunOpts) (c : FeatureClause) : Bool :=
  match clausePass pf opts c with
  | .ok true => true
  | _ => false

/-- What a single clause appends to the `collected` accumulator: the
lowercased values of a `feature`/`feat` clause, nothing otherwise. -/
def clauseCollect (c : FeatureClause) : List String :=
  if lowerStr c.name = "feature" ∨ lowerStr c.name = "feat" then
    c.vals.map lowerStr
  else []

/-- The predicate names `process_feature` recognises. -/
def recognizedName (n : String) : Prop :=
  lowerStr n ∈ ["os", "bit", "family", "platform", "arch", "endian", "feature", "feat"]

instance (n : String) : Decidable (recognizedName n) := by
  unfold recognizedName; infer_instance

/-! ## Model of Rust `std::path` (Unix flavour)

The Rust code manipulates paths through `std::path::{Path, PathBuf}`, which
is external library code. We model a Unix path by its absolute flag and its
list of components, where empty components and `"."` components are dropped
(Rust's `Components` normalisation); `".."` components are kept. The model
normalises duplicate separators and interior `"."` components when a path is
printed back, which Rust's borrowed slices sometimes preserve; the operations
below agree with Rust on the component level. -/

/-- Split a character list at every occurrence of `sep` (like
`str::split`): the result is always non-empty and the separators are
consumed. -/
def splitSep (sep : Char) : List Char → List (List Char)
  | [] => [[]]
  | c :: rest =>
    match splitSep sep rest with
    | [] => [[]]
    | g :: gs => if c = sep then [] :: g :: gs else (c :: g) :: gs

/-- Join chunks with a separator character (inverse of `splitSep`). -/
def joinSep (sep : Char) : List (List Char) → List Char
  | [] => []
  | [c] => c
  | c :: c2 :: cs => c ++ sep :: joinSep sep (c2 :: cs)

/-- A parsed path: absolute flag plus normalised components. -/
structure RPath where
  absolute : Bool
  comps : List (List Char)
deriving DecidableEq, Repr

/-- A component that survives Rust's path normalisation: non-empty and not
the current-directory marker. -/
def goodComp (c : List Char) : Bool := decide (c ≠ [] ∧ c ≠ ['.'])

/-- The component list of a path string. -/
def parseComps (l : List Char) : List (List Char) :=
  (splitSep '/' l).filter goodComp

/-- Model of `Path::new` on a Unix system: absolute iff the string starts with `/`. -/
def parsePath (l : List Char) : RPath :=
  ⟨decide (l.head? = some '/'), parseComps l⟩

/-- Render a path back to characters. -/
def printPath (p : RPath) : List Char :=
  (if p.absolute then ['/'] else []) ++ joinSep '/' p.comps

/-- Model of `Path::new` from a Lean string. -/
def parsePathStr (s : String) : RPath := parsePath s.data

/-- Path rendering to a Lean string (`to_string_lossy`). -/
def printPathStr (p : RPath) : String := String.mk (printPath p)

/-- Model of `Path::file_name`: the last component, unless it is `..` (then `None`). -/
def fileName (p : RPath) : Option (List Char) :=
  match p.comps.getLast? with
  | none => none
  | some c => if c = ['.', '.'] then none else some c

/-- Split a character list at its last `'.'`: `some (before, after)`, or
`none` when there is no dot. -/
def lastDotSplit : List Char → Option (List Char × List Char)
  | [] => none
  | c :: rest =>
    match lastDotSplit rest with
    | some (b, a) => some (c :: b, a)
    | none => if c = '.' then some ([], rest) else none

/-- Rust's `file_stem` rule applied to a file name: everything before the
last dot, except that a name whose only dot is leading is all stem. -/
def stemOfName (f : List Char) : List Char :=
  match lastDotSplit f with
  | none => f
  | some ([], _) => f
  | some (b, _) => b

/-- Rust's `extension` rule applied to a file name: the part after the last
dot, or `none` when there is no dot or the only dot is leading. -/
def extOfName (f : List Char) : Option (List Char) :=
  match lastDotSplit f with
  | none => none
  | some ([], _) => none
  | some (_, a) => some a

/-- Model of `Path::extension().unwrap_or("")` as characters. -/
def extChars (p : RPath) : List Char :=
  match fileName p with
  | none => []
  | some f => (extOfName f).getD []

/-- Model of `Path::file_stem().unwrap_or("")` as characters. -/
def stemChars (p : RPath) : List Char :=
  match fileName p with
  | none => []
  | some f => stemOfName f

/-- Model of `Path::parent().unwrap_or(Path::new(""))`: drop the last component;
the root and the empty path give the empty path. -/
def parentOrEmpty (p : RPath) : RPath :=
  match p.comps with
  | [] => ⟨false, []⟩
  | _ => ⟨p.absolute, p.comps.dropLast⟩

/-- Model of `Path::join` / `PathBuf::push`: an absolute right side replaces the
accumulated path. -/
def pathJoin (p q : RPath) : RPath :=
  if q.absolute then q else ⟨p.absolute, p.comps ++ q.comps⟩

/-- Model of `PathBuf::set_extension`: no file name means no change; otherwise the
file name becomes the stem, followed by `'.'` and the new extension when the
latter is non-empty. -/
def setExtension (p : RPath) (e : List Char) : RPath :=
  match fileName p with
  | none => p
  | some f =>
    ⟨p.absolute, p.comps.dropLast ++ [stemOfName f ++ (if e = [] then [] else '.' :: e)]⟩

/-- Model of `PathBuf::set_file_name`: pop the file name when there is one, then push
the new name (which is itself parsed as a path). -/
def setFileName (p : RPath) (n : List Char) : RPath :=
  let base : RPath :=
    match fileName p with
    | some _ => ⟨p.absolute, p.comps.dropLast⟩
    | none => p
  pathJoin base (parsePath n)

/-- Well-formed component lists: what `parsePath` can produce — no empty
component, no `"."` component, no separator inside a component. -/
def wfComps (cs : List (List Char)) : Prop :=
  ∀ c ∈ cs, c ≠ [] ∧ c ≠ ['.'] ∧ '/' ∉ c

/-! ## Built-in functions (`hakufile/src/func.rs`)

Each function mirrors one `fn` of `func.rs`. `FuncResult` is
`Result<VarValue, String>`, embedded as `Except String VarValue`.
Host facilities (filesystem checks, the regex engine, the Unicode width
table) are external and enter as explicit function parameters. -/

/-- The `PathPart` enum of `func.rs`. -/
inductive PathPart where
  | Stem
  | Name
  | Dir
  | Ext

/-- The `Where` enum of `func.rs` (side selector for trim and pad). -/
inductive Side where
  | All
  | Left
  | Right

/-- Model of `all_are` of `func.rs`, the common body of `is_file`/`is_dir`/`exists`:
`check` models the host filesystem predicate (`is_file()`, `is_dir()`,
`exists()` on `Path`). Empty argument list yields `Int 0`; otherwise `Int 1`
exactly when every argument passes the check. -/
def all_are (check : String → Bool) (args : List VarValue) : Except String VarValue :=
  if args.isEmpty then .ok (.Int 0)
  else if args.all (fun a => check a.toText) then .ok (.Int 1)
  else .ok (.Int 0)

/-- Model of `extract_part` of `func.rs`, the common body of
`stem`/`ext`/`dir`/`filename`: `Int 0` on no arguments, otherwise the
requested component of the first argument with empty-string fallbacks. -/
def extract_part (args : List VarValue) (tp : PathPart) : Except String VarValue :=
  match args with
  | [] => .ok (.Int 0)
  | a :: _ =>
    let p := parsePathStr a.toText
    match tp with
    | .Stem => .ok (.Str (String.mk (stemChars p)))
    | .Ext => .ok (.Str (String.mk (extChars p)))
    | .Dir => .ok (.Str (printPathStr (parentOrEmpty p)))
    | .Name => .ok (.Str (String.mk ((fileName p).getD [])))

/-- Model of `replace_ext` of `func.rs` (registry name `with_ext`): one argument is
returned unchanged; with a second argument the extension is replaced via
`set_extension` (an empty second argument clears the last extension). -/
def replace_ext (args : List VarValue) : Except String VarValue :=
  match args with
  | [] => .error "path undefined"
  | [a] => .ok a
  | a :: b :: _ =>
    .ok (.Str (printPathStr (setExtension (parsePathStr a.toText) b.toText.data)))

/-- Model of `add_ext` of `func.rs`: early returns for zero and one arguments and for
an empty extension; otherwise plain string append, inserting a `.` when the
extension does not start with one. -/
def add_ext (args : List VarValue) : Except String VarValue :=
  match args with
  | [] => .error "path undefined"
  | [a] => .ok a
  | a :: b :: _ =>
    let p := a.toText
    let e := b.toText
    if e = "" then .ok (.Str p)
    else if e.data.head? = some '.' then .ok (.Str (p ++ e))
    else .ok (.Str (p ++ "." ++ e))

/-- Model of `replace_name` of `func.rs` (registry names `with_filename`/`with_name`):
`"path undefined"` on zero arguments, `"new name undefined"` on one, and
`set_file_name` on the first two arguments otherwise. -/
def replace_name (args : List VarValue) : Except String VarValue :=
  match args with
  | [] => .error "path undefined"
  | [_] => .error "new name undefined"
  | a :: b :: _ =>
    .ok (.Str (printPathStr (setFileName (parsePathStr a.toText) b.toText.data)))

/-- Model of `replace_stem` of `func.rs` (registry name `with_stem`): `"path
undefined"` on zero arguments, `"new stem undefined"` on one argument or an
empty stem; otherwise the parent joined with the new stem, with the original
extension re-appended after a `.` when it is non-empty. -/
def replace_stem (args : List VarValue) : Except String VarValue :=
  match args with
  | [] => .error "path undefined"
  | [_] => .error "new stem undefined"
  | a :: b :: _ =>
    let p := parsePathStr a.toText
    let new_stem := b.toText
    if new_stem = "" then .error "new stem undefined"
    else
      let ext := extChars p
      let fname := if ext = [] then new_stem.data else new_stem.data ++ '.' :: ext
      .ok (.Str (printPathStr (pathJoin (parentOrEmpty p) (parsePath fname))))

/-- Model of Rust `char::is_whitespace` (restricted to the ASCII whitespace
Lean's `Char.isWhitespace` knows; the claims never exercise exotic
whitespace). -/
def isWs (c : Char) : Bool := c.isWhitespace

/-- Model of `str::trim_start`. -/
def trimStartChars (l : List Char) : List Char := l.dropWhile isWs

/-- Model of `str::trim_end`. -/
def trimEndChars (l : List Char) : List Char := (l.reverse.dropWhile isWs).reverse

/-- Model of `str::trim`. -/
def trimChars (l : List Char) : List Char := trimEndChars (trimStartChars l)

/-- Model of `str::trim_start_matches` for a single character. -/
def trimStartMatches (c : Char) (l : List Char) : List Char :=
  l.dropWhile (fun x => x = c)

/-- Model of `str::trim_end_matches` for a single character. -/
def trimEndMatches (c : Char) (l : List Char) : List Char :=
  (l.reverse.dropWhile (fun x => x = c)).reverse

/-- Model of `str::trim_matches` for a single character. -/
def trimMatches (c : Char) (l : List Char) : List Char :=
  trimEndMatches c (trimStartMatches c l)

/-- Model of `trim_string` of `func.rs` (registry names `trim`/`trim_left`/...):
no arguments gives empty text; one argument trims whitespace on the
requested side(s); with a second argument, its first code point is the
character to trim — and when the second argument has no first code point the
subject is returned unchanged. -/
def trim_string (args : List VarValue) (dir : Side) : Except String VarValue :=
  match args with
  | [] => .ok (.Str "")
  | [a] =>
    let s := a.toText
    let st := match dir with
      | .All => trimChars s.data
      | .Left => trimStartChars s.data
      | .Right => trimEndChars s.data
    .ok (.Str (String.mk st))
  | a :: b :: _ =>
    let s := a.toText
    match b.toText.data.head? with
    | none => .ok (.Str s)
    | some c =>
      let st := match dir with
        | .All => trimMatches c s.data
        | .Left => trimStartMatches c s.data
        | .Right => trimEndMatches c s.data
      .ok (.Str (String.mk st))

/-- The candidate loop of `match_regex`: compile each candidate in turn
(`compile` models `Regex::new` of the external regex crate, returning a
matcher on success); a compile error is returned immediately, a successful
match returns `Int 1`, and exhausting the candidates returns `Int 0`. -/
def matchLoop (compile : String → Except String (String → Bool)) (s : String) :
    List VarValue → Except String VarValue
  | [] => .ok (.Int 0)
  | a :: rest =>
    match compile a.toText with
    | .error e => .error e
    | .ok m => if m s then .ok (.Int 1) else matchLoop compile s rest

/-- Model of `match_regex` of `func.rs` (registry name `match`): fewer than two
arguments yields `Int 1`, otherwise the candidate loop over the remaining
arguments. -/
def match_regex (compile : String → Except String (String → Bool))
    (args : List VarValue) : Except String VarValue :=
  match args with
  | a :: b :: rest => matchLoop compile a.toText (b :: rest)
  | _ => .ok (.Int 1)

/-- Model of `String::repeat`. -/
def strRepeat (s : String) (n : Nat) : String := String.join (List.replicate n s)

/-- Model of `pad` of `func.rs` (registry names `pad-center`/`pad-left`/`pad-right`):
`uw` models the external `unicode_width` display-width table. Fewer than
three arguments fails; a zero-width pad token fails; a target width reached
by subject width plus one token width returns the subject unchanged;
otherwise `cnt = (target - subject_width) / token_width` whole tokens are
distributed (centering puts `cnt - cnt / 2` on the left, `cnt / 2` on the
right). -/
def pad (uw : String → Nat) (args : List VarValue) (loc : Side) : Except String VarValue :=
  match args with
  | a :: b :: c :: _ =>
    let patt := b.toText
    let patt_width := uw patt
    if patt_width = 0 then .error "pad string cannot be empty"
    else
      let l := asUsize c.to_int
      let s := a.toText
      let orig_width := uw s
      if orig_width + patt_width ≥ l then .ok (.Str s)
      else
        let cnt := (l - orig_width) / patt_width
        match loc with
        | .All =>
          let right := cnt / 2
          let left := cnt - right
          .ok (.Str (strRepeat patt left ++ s ++ strRepeat patt right))
        | .Left => .ok (.Str (strRepeat patt cnt ++ s))
        | .Right => .ok (.Str (s ++ strRepeat patt cnt))
  | _ => .error "requires three arguments"

/-- A concrete stand-in for the external regex engine, used for concrete
evaluations: literal patterns compile to a prefix matcher (the real engine
also matches `"a"` against `"abc"`), and the pattern `"("` fails to compile
(an unclosed group is a regex syntax error). -/
def litEngine (p : String) : Except String (String → Bool) :=
  if p = "(" then .error "regex parse error: unclosed group"
  else .ok (fun s => p.data.isPrefixOf s.data)

/-- A concrete stand-in for the external `unicode_width` table, valid on
ASCII text: one column per character. -/
def asciiWidth (s : String) : Nat := s.length

/-! ## Infrastructure lemmas for the path model -/

theorem splitSep_ne_nil (sep : Char) (l : List Char) : splitSep sep l ≠ [] := by
  cases l with
  | nil => simp [splitSep]
  | cons c rest =>
    rw [splitSep]
    cases h : splitSep sep rest with
    | nil => simp
    | cons g gs => by_cases hc : c = sep <;> simp [hc]

theorem mem_splitSep_not_sep (sep : Char) (l : List Char) :
    ∀ g ∈ splitSep sep l, sep ∉ g := by
  induction l with
  | nil =>
    intro g hg
    simp [splitSep] at hg
    simp [hg]
  | cons c rest ih =>
    intro g hg
    rw [splitSep] at hg
    cases h : splitSep sep rest with
    | nil => exact absurd h (splitSep_ne_nil sep rest)
    | cons g0 gs =>
      rw [h] at hg
      by_cases hc : c = sep
      · simp only [hc, if_pos rfl] at hg
        rcases List.mem_cons.mp hg with hg' | hg'
        · simp [hg']
        · exact ih g (by rw [h]; exact hg')
      · simp only [if_neg hc] at hg
        rcases List.mem_cons.mp hg with hg' | hg'
        · subst hg'
          intro hmem
          rcases List.mem_cons.mp hmem with h1 | h1
          · exact hc h1.symm
          · exact ih g0 (by rw [h]; exact List.mem_cons_self g0 gs) h1
        · exact ih g (by rw [h]; exact List.mem_cons_of_mem g0 hg')

theorem splitSep_sep_cons (sep : Char) (l : List Char) :
    splitSep sep (sep :: l) = [] :: splitSep sep l := by
  rw [splitSep]
  cases h : splitSep sep l with
  | nil => exact absurd h (splitSep_ne_nil sep l)
  | cons g gs => simp

theorem splitSep_append_left (sep : Char) (u l : List Char) (hu : sep ∉ u)
    (g : List Char) (gs : List (List Char)) (h : splitSep sep l = g :: gs) :
    splitSep sep (u ++ l) = (u ++ g) :: gs := by
  induction u with
  | nil => simpa using h
  | cons x u' ih =>
    have hx : x ≠ sep := fun hh => hu (by simp [hh])
    have hu' : sep ∉ u' := fun hh => hu (by simp [hh])
    rw [List.cons_append, splitSep, ih hu']
    simp [hx]

theorem splitSep_of_not_mem (sep : Char) (l : List Char) (h : sep ∉ l) :
    splitSep sep l = [l] := by
  induction l with
  | nil => rfl
  | cons c rest ih =>
    have hc : c ≠ sep := fun hh => h (by simp [hh])
    have hr : sep ∉ rest := fun hh => h (by simp [hh])
    rw [splitSep, ih hr]
    simp [hc]

theorem splitSep_joinSep (sep : Char) :
    ∀ (cs : List (List Char)), cs ≠ [] → (∀ c ∈ cs, sep ∉ c) →
      splitSep sep (joinSep sep cs) = cs
  | [], hne, _ => absurd rfl hne
  | [c], _, h => splitSep_of_not_mem sep c (h c (by simp))
  | c :: c2 :: cs'', _, h => by
    have hrec : splitSep sep (joinSep sep (c2 :: cs'')) = c2 :: cs'' :=
      splitSep_joinSep sep (c2 :: cs'') (by simp) (fun x hx => h x (List.mem_cons_of_mem c hx))
    have hstep : splitSep sep (sep :: joinSep sep (c2 :: cs'')) = [] :: c2 :: cs'' := by
      rw [splitSep_sep_cons, hrec]
    show splitSep sep (c ++ sep :: joinSep sep (c2 :: cs'')) = c :: c2 :: cs''
    rw [splitSep_append_left sep c _ (h c (List.mem_cons_self c _)) _ _ hstep]
    simp

theorem joinSep_head (sep : Char) (x : Char) (c : List Char) (cs : List (List Char)) :
    (joinSep sep ((x :: c) :: cs)).head? = some x := by
  cases cs <;> rfl

theorem parsePath_printPath (ab : Bool) (cs : List (List Char)) (h : wfComps cs) :
    parsePath (printPath ⟨ab, cs⟩) = ⟨ab, cs⟩ := by
  cases cs with
  | nil => cases ab <;> rfl
  | cons c cs' =>
    have hc := h c (List.mem_cons_self c cs')
    have hsplit : splitSep '/' (joinSep '/' (c :: cs')) = c :: cs' :=
      splitSep_joinSep '/' (c :: cs') (by simp) (fun x hx => (h x hx).2.2)
    have hfilter : (c :: cs').filter goodComp = c :: cs' := by
      apply List.filter_eq_self.mpr
      intro x hx
      have hw := h x hx
      simp [goodComp, hw.1, hw.2.1]
    cases ab with
    | true =>
      show parsePath ('/' :: joinSep '/' (c :: cs')) = _
      unfold parsePath parseComps
      rw [splitSep_sep_cons, hsplit]
      have hgood : goodComp ([] : List Char) = false := by simp [goodComp]
      rw [List.filter_cons_of_neg (by simp [hgood]), hfilter]
      simp
    | false =>
      obtain ⟨x, c', rfl⟩ : ∃ x c', c = x :: c' := by
        cases c with
        | nil => exact absurd rfl hc.1
        | cons x c' => exact ⟨x, c', rfl⟩
      show parsePath (joinSep '/' ((x :: c') :: cs')) = _
      unfold parsePath parseComps
      rw [hsplit, hfilter]
      have hx : x ≠ '/' := fun hh => hc.2.2 (by simp [hh])
      have hh : (joinSep '/' ((x :: c') :: cs')).head? = some x := joinSep_head '/' x c' cs'
      simp [hh, hx]

theorem lastDotSplit_of_not_mem (l : List Char) (h : '.' ∉ l) :
    lastDotSplit l = none := by
  induction l with
  | nil => rfl
  | cons c rest ih =>
    have hc : c ≠ '.' := fun hh => h (by simp [hh])
    have hr : '.' ∉ rest := fun hh => h (by simp [hh])
    rw [lastDotSplit, ih hr]
    simp [hc]

theorem not_mem_of_lastDotSplit_none (l : List Char) (h : lastDotSplit l = none) :
    '.' ∉ l := by
  induction l with
  | nil => simp
  | cons c rest ih =>
    rw [lastDotSplit] at h
    cases h' : lastDotSplit rest with
    | some p => rw [h'] at h; cases h
    | none =>
      rw [h'] at h
      by_cases hc : c = '.'
      · simp [hc] at h
      · intro hmem
        rcases List.mem_cons.mp hmem with h1 | h1
        · exact hc h1.symm
        · exact ih h' h1

theorem lastDotSplit_append (u v : List Char) (hv : '.' ∉ v) :
    lastDotSplit (u ++ '.' :: v) = some (u, v) := by
  induction u with
  | nil =>
    show lastDotSplit ('.' :: v) = some ([], v)
    rw [lastDotSplit, lastDotSplit_of_not_mem v hv]
    simp
  | cons x u' ih =>
    show lastDotSplit (x :: (u' ++ '.' :: v)) = _
    rw [lastDotSplit, ih]

theorem lastDotSplit_sound (l : List Char) :
    ∀ b a, lastDotSplit l = some (b, a) → l = b ++ '.' :: a ∧ '.' ∉ a := by
  induction l with
  | nil => intro b a h; cases h
  | cons c rest ih =>
    intro b a h
    rw [lastDotSplit] at h
    cases h' : lastDotSplit rest with
    | some p =>
      obtain ⟨b', a'⟩ := p
      rw [h'] at h
      simp only [Option.some.injEq, Prod.mk.injEq] at h
      obtain ⟨rfl, rfl⟩ := h
      obtain ⟨hl, hna⟩ := ih b' a' h'
      exact ⟨by rw [List.cons_append, ← hl], hna⟩
    | none =>
      rw [h'] at h
      by_cases hc : c = '.'
      · simp only [hc, if_true, eq_self_iff_true, if_pos, Option.some.injEq, Prod.mk.injEq] at h
        obtain ⟨rfl, rfl⟩ := h
        exact ⟨by simp [hc], not_mem_of_lastDotSplit_none rest h'⟩
      · simp [hc] at h

theorem parseComps_wf (l : List Char) : wfComps (parseComps l) := by
  intro c hc
  unfold parseComps at hc
  have h2 := List.mem_filter.mp hc
  have hg := of_decide_eq_true h2.2
  exact ⟨hg.1, hg.2, mem_splitSep_not_sep '/' l c h2.1⟩

theorem fileName_mem (p : RPath) (f : List Char) (h : fileName p = some f) :
    f ∈ p.comps := by
  unfold fileName at h
  cases h' : p.comps.getLast? with
  | none => rw [h'] at h; cases h
  | some c =>
    rw [h'] at h
    by_cases hc : c = ['.', '.']
    · simp [hc] at h
    · simp only [if_neg hc, Option.some.injEq] at h
      subst h
      obtain ⟨hne, heq⟩ := List.mem_getLast?_eq_getLast (Option.mem_def.mpr h')
      exact heq ▸ List.getLast_mem hne

/-! ## Lemmas about the feature evaluator -/

theorem check_feature_list_fst (vals p : List String) (neg : Bool) (fs fs' : List String) :
    (check_feature_list vals p neg fs).1 = (check_feature_list vals p neg fs').1 := by
  unfold check_feature_list
  by_cases h : vals.isEmpty <;> simp [h]

theorem check_feature_list_snd (vals p : List String) (neg : Bool) (fs : List String) :
    (check_feature_list vals p neg fs).2 = fs ++ p.map lowerStr := by
  unfold check_feature_list
  by_cases h : vals.isEmpty <;> simp [h]

theorem clauseCollect_eq_nil (c : FeatureClause) (h1 : lowerStr c.name ≠ "feature")
    (h2 : lowerStr c.name ≠ "feat") : clauseCollect c = [] := by
  unfold clauseCollect
  exact if_neg (by simp [h1, h2])

theorem clauseCollect_eq_map (c : FeatureClause)
    (h : lowerStr c.name = "feature" ∨ lowerStr c.name = "feat") :
    clauseCollect c = c.vals.map lowerStr := by
  unfold clauseCollect
  exact if_pos h

theorem evalClause_unknown (pf : PlatformFacts) (opts : RunOpts) (c : FeatureClause)
    (fs : List String) (h : ¬ recognizedName c.name) :
    evalClause pf opts c fs = (.error (lowerStr c.name), fs) := by
  unfold recognizedName at h
  simp only [List.mem_cons, List.not_mem_nil, or_false] at h
  push_neg at h
  obtain ⟨h1, h2, h3, h4, h5, h6, h7, h8⟩ := h
  unfold evalClause
  split <;> simp_all

theorem clausePass_recognized (pf : PlatformFacts) (opts : RunOpts) (c : FeatureClause)
    (h : recognizedName c.name) : ∃ p, clausePass pf opts c = .ok p := by
  unfold recognizedName at h
  simp only [List.mem_cons, List.not_mem_nil, or_false] at h
  unfold clausePass evalClause
  rcases h with h | h | h | h | h | h | h | h <;> rw [h] <;> exact ⟨_, rfl⟩

theorem evalClause_decomp (pf : PlatformFacts) (opts : RunOpts) (c : FeatureClause)
    (fs : List String) :
    evalClause pf opts c fs = (clausePass pf opts c, fs ++ clauseCollect c) := by
  by_cases hr : recognizedName c.name
  · have h' := hr
    unfold recognizedName at h'
    simp only [List.mem_cons, List.not_mem_nil, or_false] at h'
    rcases h' with h | h | h | h | h | h | h | h
    all_goals first
    | (have hcol : clauseCollect c = [] :=
         clauseCollect_eq_nil c (by rw [h]; exact (by decide)) (by rw [h]; exact (by decide))
       rw [hcol, List.append_nil]
       unfold clausePass evalClause
       rw [h]
       rfl)
    | (have hcol : clauseCollect c = c.vals.map lowerStr := by
         apply clauseCollect_eq_map
         rw [h]
         simp
       rw [hcol]
       have e1 : evalClause pf opts c fs =
           (.ok (check_feature_list opts.feats c.vals c.negated fs).1,
             (check_feature_list opts.feats c.vals c.negated fs).2) := by
         unfold evalClause; rw [h]; rfl
       have e2 : clausePass pf opts c =
           .ok (check_feature_list opts.feats c.vals c.negated []).1 := by
         unfold clausePass evalClause; rw [h]; rfl
       rw [e1, e2, check_feature_list_snd,
         check_feature_list_fst opts.feats c.vals c.negated fs []])
  · have e2 : clausePass pf opts c = .error (lowerStr c.name) := by
      unfold clausePass
      rw [evalClause_unknown pf opts c [] hr]
    have hne1 : lowerStr c.name ≠ "feature" := fun heq => hr (by
      unfold recognizedName; rw [heq]; decide)
    have hne2 : lowerStr c.name ≠ "feat" := fun heq => hr (by
      unfold recognizedName; rw [heq]; decide)
    rw [evalClause_unknown pf opts c fs hr, e2,
      clauseCollect_eq_nil c hne1 hne2, List.append_nil]

theorem processAux_cons_ok (pf : PlatformFacts) (opts : RunOpts) (c : FeatureClause)
    (rest : List FeatureClause) (ok : Bool) (fs : List String) (p : Bool)
    (hp : clausePass pf opts c = .ok p) :
    processAux pf opts (c :: rest) ok fs
      = processAux pf opts rest (ok && p) (fs ++ clauseCollect c) := by
  conv_lhs => rw [processAux]
  rw [evalClause_decomp, hp]

theorem processAux_cons_err (pf : PlatformFacts) (opts : RunOpts) (c : FeatureClause)
    (rest : List FeatureClause) (ok : Bool) (fs : List String) (e : String)
    (hp : clausePass pf opts c = .error e) :
    processAux pf opts (c :: rest) ok fs = (.error e, fs ++ clauseCollect c) := by
  conv_lhs => rw [processAux]
  rw [evalClause_decomp, hp]

theorem passTrue_eq (pf : PlatformFacts) (opts : RunOpts) (c : FeatureClause) (p : Bool)
    (h : clausePass pf opts c = .ok p) : passTrue pf opts c = p := by
  unfold passTrue
  rw [h]
  cases p <;> rfl

theorem processAux_ok_spec (pf : PlatformFacts) (opts : RunOpts) :
    ∀ (cls : List FeatureClause) (ok : Bool) (fs fs' : List String) (b : Bool),
      processAux pf opts cls ok fs = (.ok b, fs') →
      b = (ok && cls.all (passTrue pf opts)) ∧ fs' = fs ++ cls.flatMap clauseCollect
  | [], ok, fs, fs', b => by
    intro h
    unfold processAux at h
    obtain ⟨h1, h2⟩ := Prod.mk.injEq .. ▸ h
    exact ⟨by rw [← Except.ok.inj h1]; simp, by rw [← h2]; simp⟩
  | c :: rest, ok, fs, fs', b => by
    intro h
    cases hp : clausePass pf opts c with
    | error e =>
      rw [processAux_cons_err pf opts c rest ok fs e hp] at h
      exact absurd (congrArg Prod.fst h) (by simp)
    | ok p =>
      rw [processAux_cons_ok pf opts c rest ok fs p hp] at h
      obtain ⟨hb, hfs⟩ := processAux_ok_spec pf opts rest (ok && p) (fs ++ clauseCollect c) fs' b h
      constructor
      · rw [hb, List.all_cons, passTrue_eq pf opts c p hp, Bool.and_assoc]
      · rw [hfs, List.flatMap_cons, List.append_assoc]

theorem processAux_error_at (pf : PlatformFacts) (opts : RunOpts) :
    ∀ (pre : List FeatureClause) (c : FeatureClause) (rest : List FeatureClause)
      (ok : Bool) (fs : List String),
      (∀ x ∈ pre, recognizedName x.name) → ¬ recognizedName c.name →
      processAux pf opts (pre ++ c :: rest) ok fs
        = (.error (lowerStr c.name), fs ++ pre.flatMap clauseCollect)
  | [], c, rest, ok, fs => fun _ hc => by
    have e2 : clausePass pf opts c = .error (lowerStr c.name) := by
      unfold clausePass
      rw [evalClause_unknown pf opts c [] hc]
    have hne1 : lowerStr c.name ≠ "feature" := fun heq => hc (by
      unfold recognizedName; rw [heq]; decide)
    have hne2 : lowerStr c.name ≠ "feat" := fun heq => hc (by
      unfold recognizedName; rw [heq]; decide)
    rw [List.nil_append, processAux_cons_err pf opts c rest ok fs _ e2,
      clauseCollect_eq_nil c hne1 hne2]
    simp
  | x :: pre', c, rest, ok, fs => fun hpre hc => by
    obtain ⟨p, hp⟩ := clausePass_recognized pf opts x (hpre x (List.mem_cons_self x pre'))
    rw [List.cons_append, processAux_cons_ok pf opts x _ ok fs p hp,
      processAux_error_at pf opts pre' c rest (ok && p) (fs ++ clauseCollect x)
        (fun y hy => hpre y (List.mem_cons_of_mem x hy)) hc,
      List.flatMap_cons, List.append_assoc]

/-! ## Derived path lemmas for the extension claims -/

theorem data_ne_nil_of_ne_empty (s : String) (h : s ≠ "") : s.data ≠ [] := by
  intro hd
  apply h
  cases s
  simp_all

theorem fileName_getLast (p : RPath) (f : List Char) (h : fileName p = some f) :
    p.comps.getLast? = some f ∧ f ≠ ['.', '.'] := by
  unfold fileName at h
  cases h' : p.comps.getLast? with
  | none => rw [h'] at h; cases h
  | some c =>
    rw [h'] at h
    have h2 : (if c = ['.', '.'] then (none : Option (List Char)) else some c) = some f := h
    by_cases hc : c = ['.', '.']
    · rw [if_pos hc] at h2; cases h2
    · rw [if_neg hc] at h2
      injection h2 with h2
      subst h2
      exact ⟨rfl, hc⟩

theorem stemOfName_eq (f bb aa : List Char) (h : lastDotSplit f = some (bb, aa))
    (hne : bb ≠ []) : stemOfName f = bb := by
  unfold stemOfName
  rw [h]
  cases bb with
  | nil => exact absurd rfl hne
  | cons x bs => rfl

theorem extOfName_none (f : List Char) (h : '.' ∉ f) : extOfName f = none := by
  unfold extOfName
  rw [lastDotSplit_of_not_mem f h]

theorem extChars_eq (p : RPath) (f : List Char) (h : fileName p = some f) :
    extChars p = (extOfName f).getD [] := by
  unfold extChars
  rw [h]

theorem fileName_concat (ab : Bool) (pre : List (List Char)) (g : List Char)
    (hg : g ≠ ['.', '.']) : fileName ⟨ab, pre ++ [g]⟩ = some g := by
  unfold fileName
  show (match (pre ++ [g]).getLast? with
    | none => none
    | some c => if c = ['.', '.'] then none else some c) = some g
  rw [List.getLast?_concat]
  show (if g = ['.', '.'] then none else some g) = some g
  rw [if_neg hg]

theorem extChars_not_slash (s : String) : '/' ∉ extChars (parsePathStr s) := by
  intro hmem
  cases hf : fileName (parsePathStr s) with
  | none => rw [extChars, hf] at hmem; simp at hmem
  | some f =>
    have hwf := parseComps_wf s.data f (fileName_mem _ f hf)
    rw [extChars_eq _ f hf] at hmem
    cases hd : lastDotSplit f with
    | none => rw [extOfName_none f (not_mem_of_lastDotSplit_none f hd)] at hmem; simp at hmem
    | some pr =>
      obtain ⟨bb, aa⟩ := pr
      obtain ⟨hfeq, -⟩ := lastDotSplit_sound f bb aa hd
      have haa : '/' ∈ aa → False := fun hin =>
        hwf.2.2 (by rw [hfeq]; exact List.mem_append.mpr (Or.inr (List.mem_cons_of_mem _ hin)))
      unfold extOfName at hmem
      rw [hd] at hmem
      cases bb with
      | nil => simp at hmem
      | cons x bs => exact haa hmem

theorem joinSep_append_last (sep : Char) :
    ∀ (cs : List (List Char)) (f : List Char),
      ∃ pre, joinSep sep (cs ++ [f]) = pre ++ f
  | [], f => ⟨[], rfl⟩
  | [c], f => ⟨c ++ [sep], by simp [joinSep]⟩
  | c :: c2 :: cs, f => by
    obtain ⟨pre, hpre⟩ := joinSep_append_last sep (c2 :: cs) f
    have hpre' : joinSep sep (c2 :: (cs ++ [f])) = pre ++ f := hpre
    refine ⟨c ++ sep :: pre, ?_⟩
    show c ++ sep :: joinSep sep (c2 :: (cs ++ [f])) = (c ++ sep :: pre) ++ f
    rw [hpre']
    simp

theorem ext_of_print_no_dot (ab : Bool) (pre : List (List Char)) (g : List Char)
    (hpre : wfComps pre) (hg1 : g ≠ []) (hg4 : '/' ∉ g) (hg5 : '.' ∉ g) :
    extract_part [.Str (printPathStr ⟨ab, pre ++ [g]⟩)] .Ext = .ok (.Str "") := by
  have hg2 : g ≠ ['.', '.'] := fun he => hg5 (by rw [he]; simp)
  have hg3 : g ≠ ['.'] := fun he => hg5 (by rw [he]; simp)
  have hwf : wfComps (pre ++ [g]) := by
    intro c hc
    rcases List.mem_append.mp hc with h | h
    · exact hpre c h
    · rw [List.mem_singleton] at h
      subst h
      exact ⟨hg1, hg3, hg4⟩
  have hrt : parsePath (printPath ⟨ab, pre ++ [g]⟩) = ⟨ab, pre ++ [g]⟩ :=
    parsePath_printPath ab (pre ++ [g]) hwf
  show Except.ok (VarValue.Str (String.mk
    (extChars (parsePath (printPath ⟨ab, pre ++ [g]⟩))))) = .ok (.Str "")
  rw [hrt, extChars_eq _ g (fileName_concat ab pre g hg2), extOfName_none g hg5]
  rfl

theorem parsePath_single (l : List Char) (hne : l ≠ []) (hdot : l ≠ ['.'])
    (hsl : '/' ∉ l) : parsePath l = ⟨false, [l]⟩ := by
  obtain ⟨x, xs, rfl⟩ : ∃ x xs, l = x :: xs := by
    cases l with
    | nil => exact absurd rfl hne
    | cons x xs => exact ⟨x, xs, rfl⟩
  unfold parsePath parseComps
  rw [splitSep_of_not_mem '/' _ hsl]
  have hx : x ≠ '/' := fun hh => hsl (by rw [hh]; exact List.mem_cons_self _ _)
  have hgood : goodComp (x :: xs) = true := by simp [goodComp, hdot]
  simp [hx, hgood]

/-! ## Claim theorems -/

/-- C1: when the enabled-feature list in the execution options is empty, a
`feature`/`feat` clause evaluates to false without applying negation — for
either value of the negation flag the predicate value is false, and a
directive consisting of such a clause evaluates to `Ok(false)` while still
collecting the mentioned feature names. -/
theorem feature_empty_enabled_always_false (pf : PlatformFacts) (neg : Bool)
    (vals fs0 : List String) :
    (∀ p feats, (check_feature_list ([] : List String) p neg feats).1 = false)
    ∧ process_feature pf [⟨neg, "feature", vals⟩] ⟨[]⟩ fs0
        = (.ok false, fs0 ++ vals.map lowerStr)
    ∧ process_feature pf [⟨neg, "feat", vals⟩] ⟨[]⟩ fs0
        = (.ok false, fs0 ++ vals.map lowerStr) :=
  ⟨fun _ _ => rfl, rfl, rfl⟩

/-- C2: when `process_feature` succeeds its verdict is the conjunction of all
per-clause verdicts (no short-circuit), and the collection accumulator ends
as the initial contents followed by the lowercased values of every
`feature`/`feat` clause, regardless of any clause's or the overall verdict. -/
theorem process_feature_and_collect (pf : PlatformFacts) (opts : RunOpts)
    (cls : List FeatureClause) (fs0 fs : List String) (b : Bool)
    (h : process_feature pf cls opts fs0 = (.ok b, fs)) :
    b = cls.all (passTrue pf opts)
    ∧ fs = fs0 ++ cls.flatMap clauseCollect
    ∧ ∀ c ∈ cls, (lowerStr c.name = "feature" ∨ lowerStr c.name = "feat") →
        ∀ v ∈ c.vals, lowerStr v ∈ fs := by
  obtain ⟨hb, hfs⟩ := processAux_ok_spec pf opts cls true fs0 fs b h
  refine ⟨by rw [hb, Bool.true_and], hfs, ?_⟩
  intro c hc hfeat v hv
  rw [hfs]
  exact List.mem_append.mpr (Or.inr (List.mem_flatMap.mpr
    ⟨c, hc, by rw [clauseCollect_eq_map c hfeat]; exact List.mem_map_of_mem lowerStr hv⟩))

/-- Witness for C2: the spec's example `[feature(A,b), os(linux)]` on a
"windows" platform with enabled features `["x"]` — evaluation succeeds with
overall verdict false, yet `collected` holds `"a"` and `"b"`. -/
theorem process_feature_and_collect_witness :
    (false = List.all ([⟨false, "feature", ["A", "b"]⟩,
          ⟨false, "os", ["linux"]⟩] : List FeatureClause)
        (passTrue ⟨"windows", "64", "windows", "x86_64", "little"⟩ ⟨["x"]⟩))
    ∧ (["a", "b"] : List String) = [] ++ ([⟨false, "feature", ["A", "b"]⟩,
          ⟨false, "os", ["linux"]⟩] : List FeatureClause).flatMap clauseCollect
    ∧ ∀ c ∈ ([⟨false, "feature", ["A", "b"]⟩,
          ⟨false, "os", ["linux"]⟩] : List FeatureClause),
        (lowerStr c.name = "feature" ∨ lowerStr c.name = "feat") →
        ∀ v ∈ c.vals, lowerStr v ∈ (["a", "b"] : List String) :=
  process_feature_and_collect ⟨"windows", "64", "windows", "x86_64", "little"⟩ ⟨["x"]⟩
    [⟨false, "feature", ["A", "b"]⟩, ⟨false, "os", ["linux"]⟩] [] ["a", "b"] false rfl

/-- C10: when `process_feature` aborts on an unrecognized predicate key, the
feature names collected by the clauses before the failing one are retained in
the accumulator (no rollback on error). -/
theorem process_feature_error_keeps_collected (pf : PlatformFacts) (opts : RunOpts)
    (fs0 : List String) (pre : List FeatureClause) (c : FeatureClause)
    (rest : List FeatureClause) (hpre : ∀ x ∈ pre, recognizedName x.name)
    (hc : ¬ recognizedName c.name) :
    process_feature pf (pre ++ c :: rest) opts fs0
      = (.error (lowerStr c.name), fs0 ++ pre.flatMap clauseCollect) :=
  processAux_error_at pf opts pre c rest true fs0 hpre hc

/-- Witness for C10: `[feature(a), version(1), feat(z)]` fails on `version`
but keeps `"a"` collected by the earlier `feature` clause. -/
theorem process_feature_error_keeps_collected_witness :
    process_feature ⟨"linux", "64", "unix", "x86_64", "little"⟩
      [⟨false, "feature", ["a"]⟩, ⟨false, "version", ["1"]⟩, ⟨false, "feat", ["z"]⟩]
      ⟨["a"]⟩ [] = (.error "version", ["a"]) :=
  process_feature_error_keeps_collected ⟨"linux", "64", "unix", "x86_64", "little"⟩
    ⟨["a"]⟩ [] [⟨false, "feature", ["a"]⟩] ⟨false, "version", ["1"]⟩
    [⟨false, "feat", ["z"]⟩] (by decide) (by decide)

/-- C3 counterexample: with candidates `["a", "("]` against subject `"abc"`
the first candidate compiles and matches, so `match` returns `Int 1` even
though the later candidate `"("` fails to compile — refuting "if any
candidate fails to compile the call returns a hard failure". -/
theorem match_invalid_after_match_counterexample :
    litEngine "(" = .error "regex parse error: unclosed group"
    ∧ match_regex litEngine [.Str "abc", .Str "a", .Str "("] = .ok (.Int 1) :=
  ⟨rfl, rfl⟩

/-- C3 amended: if a candidate fails to compile and every earlier candidate
compiled but did not match the subject, the call returns the hard
compilation failure and the candidates after the failing one are never
consulted (the result does not depend on `rest`). -/
theorem match_regex_compile_error_aborts
    (compile : String → Except String (String → Bool)) (subj : VarValue)
    (pre : List VarValue) (bad : VarValue) (rest : List VarValue) (e : String)
    (hpre : ∀ a ∈ pre, ∃ m, compile a.toText = .ok m ∧ m subj.toText = false)
    (hbad : compile bad.toText = .error e) :
    match_regex compile (subj :: pre ++ bad :: rest) = .error e := by
  have hloop : ∀ (l : List VarValue),
      (∀ a ∈ l, ∃ m, compile a.toText = .ok m ∧ m subj.toText = false) →
      matchLoop compile subj.toText (l ++ bad :: rest) = .error e := by
    intro l
    induction l with
    | nil =>
      intro _
      rw [List.nil_append, matchLoop, hbad]
    | cons a l' ih =>
      intro hl
      obtain ⟨m, hm, hmf⟩ := hl a (List.mem_cons_self a l')
      rw [List.cons_append, matchLoop, hm]
      show (if m subj.toText then (.ok (.Int 1) : Except String VarValue)
        else matchLoop compile subj.toText (l' ++ bad :: rest)) = .error e
      rw [hmf]
      simp only [Bool.false_eq_true, if_false]
      exact ih (fun x hx => hl x (List.mem_cons_of_mem a hx))
  cases pre with
  | nil => exact hloop [] hpre
  | cons a pre' => exact hloop (a :: pre') hpre

/-- Witness for C3 (amended): candidate `"z"` compiles but does not match
`"abc"`, then `"("` fails to compile; the result is the compile error even
though a further candidate `"a"` would have matched. -/
theorem match_regex_compile_error_aborts_witness :
    match_regex litEngine [.Str "abc", .Str "z", .Str "(", .Str "a"]
      = .error "regex parse error: unclosed group" :=
  match_regex_compile_error_aborts litEngine (.Str "abc") [.Str "z"] (.Str "(")
    [.Str "a"] "regex parse error: unclosed group"
    (by
      intro a ha
      rw [List.mem_singleton] at ha
      subst ha
      exact ⟨fun s => ("z" : String).data.isPrefixOf s.data, rfl, rfl⟩)
    rfl

/-- C4 counterexample: with zero arguments `with_filename` fails with
`"path undefined"` (not `"new name undefined"`), and with three arguments it
succeeds (`["a","b","c"]` gives `"b"`) — refuting both the claimed message
for zero arguments and the claimed failure for three-or-more arguments. -/
theorem with_filename_counterexample :
    replace_name [] = .error "path undefined"
    ∧ replace_name [.Str "a", .Str "b", .Str "c"] = .ok (.Str "b") :=
  ⟨rfl, rfl⟩

/-- C4 amended: `with_filename` fails with `"path undefined"` on zero
arguments, fails with `"new name undefined"` on exactly one argument, and
succeeds on two or more arguments (extra arguments are ignored). -/
theorem with_filename_arity (a b : VarValue) (rest : List VarValue) :
    replace_name [] = .error "path undefined"
    ∧ replace_name [a] = .error "new name undefined"
    ∧ ∃ r : String, replace_name (a :: b :: rest) = .ok (.Str r) :=
  ⟨rfl, rfl, ⟨_, rfl⟩⟩

/-- C8: the filesystem predicates' common body returns `Int 1` exactly when
the argument list is non-empty and every argument satisfies the host check,
returns `Int 0` on an empty argument list, and never fails — for any host
filesystem predicate. -/
theorem fs_predicates_all (check : String → Bool) (args : List VarValue) :
    all_are check args
      = .ok (.Int (if args ≠ [] ∧ args.all (fun x => check x.toText) then 1 else 0)) := by
  cases args with
  | nil => rfl
  | cons a l =>
    unfold all_are
    by_cases h : (a :: l).all (fun x => check x.toText)
    · simp [h]
    · simp [h]

/-- C9: calling trim with a second argument whose text is empty (no first
code point) returns the subject unchanged for every side selector — neither
whitespace trimming nor character trimming is applied. -/
theorem trim_empty_second_arg (a b : VarValue) (rest : List VarValue) (dir : Side)
    (h : b.toText = "") :
    trim_string (a :: b :: rest) dir = .ok (.Str a.toText) := by
  simp only [trim_string]
  rw [h]
  rfl

/-- Witness for C9: trimming `" x "` with an empty trim-character argument
returns `" x "` with its whitespace intact. -/
theorem trim_empty_second_arg_witness :
    trim_string [.Str " x ", .Str ""] .All = .ok (.Str " x ") :=
  trim_empty_second_arg (.Str " x ") (.Str "") [] .All rfl

/-- C6 counterexample: at `pad-center("abc", "+=", 10)` the repetition count
is 3 (odd) and the left side receives `3 - 3/2 = 2` repetitions against 1 on
the right — the larger half goes left, refuting "the smaller half of the
repetitions goes on the left when the count is odd". -/
theorem pad_center_smaller_left_counterexample :
    pad asciiWidth [.Str "abc", .Str "+=", .Int 10] .All
      = .ok (.Str (strRepeat "+=" 2 ++ "abc" ++ strRepeat "+=" 1))
    ∧ pad asciiWidth [.Str "abc", .Str "+=", .Int 10] .All
      ≠ .ok (.Str (strRepeat "+=" 1 ++ "abc" ++ strRepeat "+=" 2)) :=
  ⟨rfl, by decide⟩

/-- C6 amended: with a non-zero-width pad token, a target width not
exceeding subject width plus token width returns the subject unchanged;
otherwise `cnt = (target - subject_width) / token_width` repetitions are
used, centering placing `cnt - cnt / 2` (the larger half when `cnt` is odd)
on the left and `cnt / 2` on the right, and the one-sided variants placing
all `cnt` repetitions on their side. -/
theorem pad_semantics (uw : String → Nat) (a b c : VarValue) (rest : List VarValue)
    (hT : uw b.toText ≠ 0) :
    (asUsize c.to_int ≤ uw a.toText + uw b.toText →
      ∀ loc, pad uw (a :: b :: c :: rest) loc = .ok (.Str a.toText))
    ∧ (uw a.toText + uw b.toText < asUsize c.to_int →
      pad uw (a :: b :: c :: rest) .All
        = .ok (.Str (strRepeat b.toText
              ((asUsize c.to_int - uw a.toText) / uw b.toText
                - (asUsize c.to_int - uw a.toText) / uw b.toText / 2)
            ++ a.toText
            ++ strRepeat b.toText ((asUsize c.to_int - uw a.toText) / uw b.toText / 2)))
      ∧ pad uw (a :: b :: c :: rest) .Left
        = .ok (.Str (strRepeat b.toText ((asUsize c.to_int - uw a.toText) / uw b.toText)
            ++ a.toText))
      ∧ pad uw (a :: b :: c :: rest) .Right
        = .ok (.Str (a.toText
            ++ strRepeat b.toText ((asUsize c.to_int - uw a.toText) / uw b.toText)))) := by
  constructor
  · intro hle loc
    unfold pad
    dsimp only
    rw [if_neg hT, if_pos hle]
  · intro hlt
    have hge : ¬ (asUsize c.to_int ≤ uw a.toText + uw b.toText) := not_le.mpr hlt
    refine ⟨?_, ?_, ?_⟩ <;>
    · unfold pad
      dsimp only
      rw [if_neg hT, if_neg hge]

/-- Witness for C6 (amended): the spec's concrete examples, with the ASCII
width table: centering at widths 10 and 11, the one-sided variants at 10,
and the unchanged-subject case at width 2. -/
theorem pad_semantics_witness :
    pad asciiWidth [.Str "abc", .Str "+=", .Int 10] .All = .ok (.Str "+=+=abc+=")
    ∧ pad asciiWidth [.Str "abc", .Str "+=", .Int 10] .Left = .ok (.Str "+=+=+=abc")
    ∧ pad asciiWidth [.Str "abc", .Str "+=", .Int 10] .Right = .ok (.Str "abc+=+=+=")
    ∧ pad asciiWidth [.Str "abc", .Str "+=", .Int 11] .All = .ok (.Str "+=+=abc+=+=")
    ∧ pad asciiWidth [.Str "abc", .Str "+=", .Int 2] .All = .ok (.Str "abc") := by
  have h10 := pad_semantics asciiWidth (.Str "abc") (.Str "+=") (.Int 10) [] (by decide)
  have h11 := pad_semantics asciiWidth (.Str "abc") (.Str "+=") (.Int 11) [] (by decide)
  have h2 := pad_semantics asciiWidth (.Str "abc") (.Str "+=") (.Int 2) [] (by decide)
  exact ⟨(h10.2 (by decide)).1, (h10.2 (by decide)).2.1, (h10.2 (by decide)).2.2,
    (h11.2 (by decide)).1, h2.1 (by decide) .All⟩

/-- C5 counterexample: with zero arguments `with_stem` fails with the message
`"path undefined"`, not `"new stem undefined"` as the claim states. -/
theorem with_stem_zero_args_counterexample :
    replace_stem [] = .error "path undefined"
    ∧ replace_stem [] ≠ .error "new stem undefined" :=
  ⟨rfl, by decide⟩

/-- C5 amended: `with_stem` fails `"path undefined"` on zero arguments and
`"new stem undefined"` when the stem argument is missing (one argument) or
its text is empty; on success with a slash-free new stem and a path with a
non-empty extension, the result's characters end with the new stem followed
by `'.'` and the original extension — the extension is preserved and
re-appended after the new stem joined by `'.'`. -/
theorem with_stem_semantics (a b : VarValue) (rest : List VarValue) :
    replace_stem [] = .error "path undefined"
    ∧ replace_stem [a] = .error "new stem undefined"
    ∧ (b.toText = "" → replace_stem (a :: b :: rest) = .error "new stem undefined")
    ∧ (b.toText ≠ "" → '/' ∉ b.toText.data →
        extChars (parsePathStr a.toText) ≠ [] →
        ∃ (r pre0 : List Char),
          replace_stem (a :: b :: rest) = .ok (.Str (String.mk r))
          ∧ r = pre0 ++ (b.toText.data ++ '.' :: extChars (parsePathStr a.toText))) := by
  refine ⟨rfl, rfl, ?_, ?_⟩
  · intro h
    simp only [replace_stem]
    rw [if_pos h]
  · intro hb hslash hext
    have hstep : replace_stem (a :: b :: rest)
        = .ok (.Str (printPathStr (pathJoin (parentOrEmpty (parsePathStr a.toText))
            (parsePath (b.toText.data ++ '.' :: extChars (parsePathStr a.toText)))))) := by
      simp only [replace_stem]
      rw [if_neg hb, if_neg hext]
    obtain ⟨x, bd, hxbd⟩ : ∃ x bd, b.toText.data = x :: bd := by
      cases hbb : b.toText.data with
      | nil => exact absurd hbb (data_ne_nil_of_ne_empty _ hb)
      | cons x bd => exact ⟨x, bd, rfl⟩
    have hfslash : '/' ∉ b.toText.data ++ '.' :: extChars (parsePathStr a.toText) := by
      intro hm
      rcases List.mem_append.mp hm with hm | hm
      · exact hslash hm
      · rcases List.mem_cons.mp hm with hm | hm
        · exact absurd hm (by decide)
        · exact extChars_not_slash a.toText hm
    have hfne : b.toText.data ++ '.' :: extChars (parsePathStr a.toText) ≠ [] := by
      rw [hxbd]
      simp
    have hfdot : b.toText.data ++ '.' :: extChars (parsePathStr a.toText) ≠ ['.'] := by
      rw [hxbd]
      intro hcontra
      rw [List.cons_append] at hcontra
      have h2 := List.cons.inj hcontra
      exact absurd (List.append_eq_nil.mp h2.2).2 (by simp)
    have hparse : parsePath (b.toText.data ++ '.' :: extChars (parsePathStr a.toText))
        = ⟨false, [b.toText.data ++ '.' :: extChars (parsePathStr a.toText)]⟩ :=
      parsePath_single _ hfne hfdot hfslash
    have hjoin : pathJoin (parentOrEmpty (parsePathStr a.toText))
          (parsePath (b.toText.data ++ '.' :: extChars (parsePathStr a.toText)))
        = ⟨(parentOrEmpty (parsePathStr a.toText)).absolute,
            (parentOrEmpty (parsePathStr a.toText)).comps
              ++ [b.toText.data ++ '.' :: extChars (parsePathStr a.toText)]⟩ := by
      rw [hparse]
      rfl
    obtain ⟨pre1, hpre1⟩ := joinSep_append_last '/'
      (parentOrEmpty (parsePathStr a.toText)).comps
      (b.toText.data ++ '.' :: extChars (parsePathStr a.toText))
    refine ⟨_, (if (parentOrEmpty (parsePathStr a.toText)).absolute then ['/'] else [])
      ++ pre1, hstep, ?_⟩
    show printPath (pathJoin (parentOrEmpty (parsePathStr a.toText))
        (parsePath (b.toText.data ++ '.' :: extChars (parsePathStr a.toText)))) = _
    rw [hjoin]
    unfold printPath
    rw [hpre1, List.append_assoc]

/-- Witness for C5 (amended): `with_stem("dir/file.abc", "some")` succeeds
with `"dir/some.abc"`, whose characters end with `some.abc`; the empty-stem
case fails `"new stem undefined"`. -/
theorem with_stem_semantics_witness :
    replace_stem [.Str "dir/file.abc", .Str ""] = .error "new stem undefined"
    ∧ ∃ (r pre0 : List Char),
        replace_stem [.Str "dir/file.abc", .Str "some"] = .ok (.Str (String.mk r))
        ∧ r = pre0 ++ ((VarValue.Str "some").toText.data
            ++ '.' :: extChars (parsePathStr (VarValue.Str "dir/file.abc").toText)) :=
  ⟨(with_stem_semantics (.Str "dir/file.abc") (.Str "") []).2.2.1 rfl,
    (with_stem_semantics (.Str "dir/file.abc") (.Str "some") []).2.2.2
      (by decide) (by decide) (by decide)⟩

/-- C7 counterexample: for `P = "a.b.c"`, `with_ext(P, "")` yields `"a.b"`
and `ext("a.b")` is `"b"`, not empty — clearing removes only the last
extension, refuting "ext(with_ext(P, \x22\x22)) is empty" for every path. -/
theorem with_ext_clear_counterexample :
    replace_ext [.Str "a.b.c", .Str ""] = .ok (.Str "a.b")
    ∧ extract_part [.Str "a.b"] .Ext = .ok (.Str "b")
    ∧ ("b" : String) ≠ "" :=
  ⟨rfl, rfl, by decide⟩

/-- C7 amended: `with_ext` with only one argument returns the path
unchanged; `with_ext(P, "")` clears only the last extension, so for every
path whose file name consists of a dot-free stem and one extension the
cleared path has an empty `ext`, and `with_ext(with_ext(P, "x"), "")`
removes the `x` extension, again leaving an empty `ext` for such paths
(for multi-extension file names such as `"a.b.c"` the inner extension
survives instead). -/
theorem with_ext_semantics (s : String) (f bb aa : List Char)
    (h1 : fileName (parsePathStr s) = some f)
    (h2 : lastDotSplit f = some (bb, aa))
    (h3 : bb ≠ []) (h4 : '.' ∉ bb) :
    (∀ a : VarValue, replace_ext [a] = .ok a)
    ∧ (∃ r : String, replace_ext [.Str s, .Str ""] = .ok (.Str r)
        ∧ extract_part [.Str r] .Ext = .ok (.Str ""))
    ∧ (∃ r r' : String, replace_ext [.Str s, .Str "x"] = .ok (.Str r)
        ∧ replace_ext [.Str r, .Str ""] = .ok (.Str r')
        ∧ extract_part [.Str r'] .Ext = .ok (.Str "")) := by
  have hwfs : wfComps (parsePathStr s).comps := parseComps_wf s.data
  have hfwf := hwfs f (fileName_mem _ f h1)
  obtain ⟨hfeq, hnaa⟩ := lastDotSplit_sound f bb aa h2
  have hbbsl : '/' ∉ bb := fun hm =>
    hfwf.2.2 (by rw [hfeq]; exact List.mem_append.mpr (Or.inl hm))
  have hpre : wfComps (parsePathStr s).comps.dropLast := fun c hc =>
    hwfs c ((List.dropLast_sublist (parsePathStr s).comps).subset hc)
  have hsetnil : setExtension (parsePathStr s) [] =
      ⟨(parsePathStr s).absolute, (parsePathStr s).comps.dropLast ++ [bb]⟩ := by
    unfold setExtension
    rw [h1]
    show (⟨(parsePathStr s).absolute,
      (parsePathStr s).comps.dropLast ++ [stemOfName f ++ ([] : List Char)]⟩ : RPath) = _
    rw [stemOfName_eq f bb aa h2 h3]
    simp
  refine ⟨fun a => rfl, ?_, ?_⟩
  · refine ⟨printPathStr ⟨(parsePathStr s).absolute,
      (parsePathStr s).comps.dropLast ++ [bb]⟩, ?_, ?_⟩
    · show Except.ok (VarValue.Str (printPathStr (setExtension (parsePathStr s) []))) = _
      rw [hsetnil]
    · exact ext_of_print_no_dot _ _ bb hpre h3 hbbsl h4
  · have hsetx : setExtension (parsePathStr s) ['x'] =
        ⟨(parsePathStr s).absolute,
          (parsePathStr s).comps.dropLast ++ [bb ++ '.' :: ['x']]⟩ := by
      unfold setExtension
      rw [h1]
      show (⟨(parsePathStr s).absolute,
        (parsePathStr s).comps.dropLast ++ [stemOfName f ++ ('.' :: ['x'])]⟩ : RPath) = _
      rw [stemOfName_eq f bb aa h2 h3]
    have hg'ne : bb ++ '.' :: ['x'] ≠ [] := by
      intro hcontra
      exact absurd (List.append_eq_nil.mp hcontra).2 (by simp)
    have hg'dot : bb ++ '.' :: ['x'] ≠ ['.'] := by
      intro hcontra
      have := congrArg List.length hcontra
      simp at this
    have hg'dd : bb ++ '.' :: ['x'] ≠ ['.', '.'] := by
      intro hcontra
      have hx : 'x' ∈ bb ++ '.' :: ['x'] := List.mem_append.mpr (Or.inr (by simp))
      rw [hcontra] at hx
      simp at hx
    have hg'sl : '/' ∉ bb ++ '.' :: ['x'] := by
      intro hm
      rcases List.mem_append.mp hm with hm | hm
      · exact hbbsl hm
      · simp at hm
    have hwfq : wfComps ((parsePathStr s).comps.dropLast ++ [bb ++ '.' :: ['x']]) := by
      intro c hc
      rcases List.mem_append.mp hc with h | h
      · exact hpre c h
      · rw [List.mem_singleton] at h
        subst h
        exact ⟨hg'ne, hg'dot, hg'sl⟩
    have hrt : parsePath (printPath ⟨(parsePathStr s).absolute,
        (parsePathStr s).comps.dropLast ++ [bb ++ '.' :: ['x']]⟩)
        = ⟨(parsePathStr s).absolute,
            (parsePathStr s).comps.dropLast ++ [bb ++ '.' :: ['x']]⟩ :=
      parsePath_printPath _ _ hwfq
    have hfn2 : fileName ⟨(parsePathStr s).absolute,
        (parsePathStr s).comps.dropLast ++ [bb ++ '.' :: ['x']]⟩
        = some (bb ++ '.' :: ['x']) :=
      fileName_concat _ _ _ hg'dd
    have hld2 : lastDotSplit (bb ++ '.' :: ['x']) = some (bb, ['x']) :=
      lastDotSplit_append bb ['x'] (by decide)
    have hset2 : setExtension ⟨(parsePathStr s).absolute,
        (parsePathStr s).comps.dropLast ++ [bb ++ '.' :: ['x']]⟩ []
        = ⟨(parsePathStr s).absolute, (parsePathStr s).comps.dropLast ++ [bb]⟩ := by
      unfold setExtension
      rw [hfn2]
      show (⟨(parsePathStr s).absolute,
        ((parsePathStr s).comps.dropLast ++ [bb ++ '.' :: ['x']]).dropLast
          ++ [stemOfName (bb ++ '.' :: ['x']) ++ ([] : List Char)]⟩ : RPath) = _
      rw [List.dropLast_concat, stemOfName_eq _ bb ['x'] hld2 h3]
      simp
    refine ⟨printPathStr ⟨(parsePathStr s).absolute,
        (parsePathStr s).comps.dropLast ++ [bb ++ '.' :: ['x']]⟩,
      printPathStr ⟨(parsePathStr s).absolute,
        (parsePathStr s).comps.dropLast ++ [bb]⟩, ?_, ?_, ?_⟩
    · show Except.ok (VarValue.Str (printPathStr (setExtension (parsePathStr s) ['x']))) = _
      rw [hsetx]
    · show Except.ok (VarValue.Str (printPathStr (setExtension (parsePath (printPath
        ⟨(parsePathStr s).absolute,
         (parsePathStr s).comps.dropLast ++ [bb ++ '.' :: ['x']]⟩)) []))) = _
      rw [hrt, hset2]
    · exact ext_of_print_no_dot _ _ bb hpre h3 hbbsl h4

/-- Witness for C7 (amended): `P = "a/file.txt"` — a one-extension file
name; clearing gives `"a/file"` with empty `ext`, and setting `"x"` then
clearing also gives `"a/file"` with empty `ext`. -/
theorem with_ext_semantics_witness :
    (∀ a : VarValue, replace_ext [a] = .ok a)
    ∧ (∃ r : String, replace_ext [.Str "a/file.txt", .Str ""] = .ok (.Str r)
        ∧ extract_part [.Str r] .Ext = .ok (.Str ""))
    ∧ (∃ r r' : String, replace_ext [.Str "a/file.txt", .Str "x"] = .ok (.Str r)
        ∧ replace_ext [.Str r, .Str ""] = .ok (.Str r')
        ∧ extract_part [.Str r'] .Ext = .ok (.Str "")) :=
  with_ext_semantics "a/file.txt" ("file.txt" : String).data ("file" : String).data
    ("txt" : String).data (by decide) (by decide) (by decide) (by decide)

end Haku
